import Mathlib

/-!
Verification of the video-blocker fingerprinting core.

The definitions below are shallow embeddings of the JavaScript sources:
- `src/esm-src/constants.js` (configuration constants),
- `src/unnamed/part_003` (`ConcurrencyQueue`),
- `src/unnamed/part_004` (`HashUtils`),
- `src/unnamed/part_000` (the legacy content script: `hamming`,
  `computePHashFromMatrix`, frame-capture grayscale accumulation),
- `src/esm-src/utils/video.js` (`imageDataToGrayscaleMatrix`).

JavaScript numbers are modelled exactly: loop counters and lengths as `Nat`,
job priorities as `Int`, DCT coefficients (which involve `Math.cos`) as `ℝ`,
pixel intensities as `ℚ`.  `Infinity` results are modelled by `Option.none`,
thrown exceptions by `Except.error`.  Out-of-range JS array access yields
`undefined`; where it cannot occur on the executed paths we model the access
total with a default value.
-/

namespace VideoBlocker

/-! ## Constants (src/esm-src/constants.js) -/

def CANVAS_SIZE : Nat := 32
def DCT_BLOCK_SIZE : Nat := 8
def HAMMING_THRESHOLD : Nat := 12
def MIN_ONES_ZEROS : Nat := 4
def MAX_CONCURRENT : Nat := 3

/-! ## Hamming distance and similarity (src/unnamed/part_004 `HashUtils`)

`hammingDistance` loops `i` over the common prefix, counting positions where
the characters differ, then adds `Math.abs(hash1.length - hash2.length)`.
An empty (falsy) argument returns `Infinity`, modelled as `none`. -/

def countDiffs : List Char → List Char → Nat
  | a :: as, b :: bs => (if a = b then 0 else 1) + countDiffs as bs
  | _, _ => 0

def hammingDistance (hash1 hash2 : List Char) : Option Nat :=
  if hash1.isEmpty ∨ hash2.isEmpty then none
  else some (countDiffs hash1 hash2 + ((hash1.length : Int) - hash2.length).natAbs)

/-- Embeds `areHashesSimilar`: distance ≤ threshold.  `Infinity <= t` is false in JS,
hence the `none` branch yields `false`. -/
def areHashesSimilar (hash1 hash2 : List Char) (threshold : Nat) : Bool :=
  match hammingDistance hash1 hash2 with
  | none => false
  | some d => decide (d ≤ threshold)

/-- Embeds `isTrivialHash`: `ones` counts '1' characters, `zeros = length - ones`,
trivial iff either count is ≤ the configured minimum (default
`MIN_ONES_ZEROS = 4`).  The empty string is falsy in JS and returns `true`;
here `[]` has `ones = 0 ≤ minOnesZeros`, giving the same answer. -/
def isTrivialHash (minOnesZeros : Nat) (hash : List Char) : Bool :=
  let ones := hash.count '1'
  let zeros := hash.length - ones
  decide (ones ≤ minOnesZeros) || decide (zeros ≤ minOnesZeros)

/-! ## ConcurrencyQueue (src/unnamed/part_003)

A `Job` carries its `id` and numeric `priority`; the wrapped async function,
resolve/reject callbacks and creation timestamp play no role in scheduling
order and are omitted.  The `activeJobs` set is a list of distinct job
objects; `started` instruments `executeJob` admissions in order. -/

structure Job where
  id : Nat
  priority : Int
deriving DecidableEq

structure QState where
  pendingJobs : List Job
  activeJobs : List Job
  maxConcurrent : Nat
  started : List Nat
deriving DecidableEq

/-- Embeds the insertion step of `enqueue`: `findIndex(j => j.priority < priority)`
then `splice` there, or `push` when no index is found. -/
def insertByPriority (job : Job) : List Job → List Job
  | [] => [job]
  | j :: rest =>
      if j.priority < job.priority then job :: j :: rest
      else j :: insertByPriority job rest

/-- The `processQueue` while-loop: while the active set is below capacity and
pending is non-empty, shift the head of pending and start it (`executeJob`
adds it to `activeJobs`).  Returns (pending, active, ids started in order). -/
def drainPending (pending active : List Job) (max : Nat) : List Job × List Job × List Nat :=
  match pending with
  | [] => ([], active, [])
  | job :: rest =>
      if active.length < max then
        let r := drainPending rest (job :: active) max
        (r.1, r.2.1, job.id :: r.2.2)
      else (job :: rest, active, [])

def processQueue (s : QState) : QState :=
  let r := drainPending s.pendingJobs s.activeJobs s.maxConcurrent
  { s with pendingJobs := r.1, activeJobs := r.2.1, started := s.started ++ r.2.2 }

/-- Externally visible scheduler events: `enqueue` (insert by priority, then
`processQueue`) and the settlement of the `k`-th active job (the `finally` block of `executeJob`: delete from `activeJobs`, then `processQueue`). -/
inductive QEvent where
  | enqueue (id : Nat) (priority : Int)
  | settle (k : Nat)
deriving DecidableEq

def step (s : QState) (e : QEvent) : QState :=
  match e with
  | .enqueue id priority =>
      processQueue { s with pendingJobs := insertByPriority ⟨id, priority⟩ s.pendingJobs }
  | .settle k =>
      processQueue { s with activeJobs := s.activeJobs.eraseIdx k }

def initState (max : Nat) : QState := ⟨[], [], max, []⟩

def run (max : Nat) (evs : List QEvent) : QState := evs.foldl step (initState max)

/-! ## Perceptual hash (src/unnamed/part_004 `computePHashFromMatrix`, `dct2D`)

DCT coefficients are real numbers (the JS code calls `Math.cos`), so this part
of the embedding lives in `ℝ` and is noncomputable. -/

/-- Entry access `m[y][x]`; out-of-range access is modelled as 0 (it never occurs on the
executed paths for well-formed 32×32 matrices). -/
def entry (m : List (List ℝ)) (y x : Nat) : ℝ := (m.getD y []).getD x 0

noncomputable def alphaDCT (u : Nat) : ℝ := if u = 0 then 1 / Real.sqrt 2 else 1

/-- Embeds `dct2D`: `result[u][v] = (2/N)·α(u)·α(v)·Σ_y Σ_x m[y][x]·cos((2x+1)uπ/2N)·cos((2y+1)vπ/2N)`. -/
noncomputable def dct2D (matrix : List (List ℝ)) : List (List ℝ) :=
  let N := matrix.length
  (List.range N).map fun u =>
    (List.range N).map fun v =>
      (2 / (N : ℝ)) * alphaDCT u * alphaDCT v *
        ∑ y ∈ Finset.range N, ∑ x ∈ Finset.range N,
          entry matrix y x *
            Real.cos (((2 * (x : ℝ) + 1) * (u : ℝ) * Real.pi) / (2 * (N : ℝ))) *
            Real.cos (((2 * (y : ℝ) + 1) * (v : ℝ) * Real.pi) / (2 * (N : ℝ)))

/-- The 8×8 low-frequency block scan: `for y, for x, skip (0,0), push dct[y][x]`. -/
noncomputable def lowFreqBlock (dct : List (List ℝ)) : List ℝ :=
  (List.range DCT_BLOCK_SIZE).flatMap fun y =>
    (List.range DCT_BLOCK_SIZE).flatMap fun x =>
      if y = 0 ∧ x = 0 then [] else [entry dct y x]

/-- Embeds `block.slice().sort((a, b) => a - b)` — ascending numeric sort. -/
noncomputable def sortAsc (l : List ℝ) : List ℝ := l.insertionSort (· ≤ ·)

/-- The body of `computePHashFromMatrix` after the size guard: extract the
low-frequency block, take `sorted[Math.floor(sorted.length / 2)]` as median,
and emit '1' for coefficients strictly above the median, '0' otherwise. -/
noncomputable def computePHashBits (matrix32 : List (List ℝ)) : List Char :=
  let block := lowFreqBlock (dct2D matrix32)
  let sorted := sortAsc block
  let median := sorted.getD (sorted.length / 2) 0
  block.map fun v => if median < v then '1' else '0'

/-- Embeds `computePHashFromMatrix` up to its catch: a wrong-sized matrix throws
an Error with message "Invalid matrix size" before any DCT work. -/
noncomputable def computePHashChecked (matrix32 : List (List ℝ)) : Except String (List Char) :=
  if matrix32.length ≠ CANVAS_SIZE then Except.error "Invalid matrix size"
  else Except.ok (computePHashBits matrix32)

/-- Embeds `computePHashFromMatrix` as seen by callers: the catch block logs
the error and returns `null`. -/
noncomputable def computePHashFromMatrix (matrix32 : List (List ℝ)) : Option (List Char) :=
  (computePHashChecked matrix32).toOption

/-- The all-zero 32×32 grayscale matrix. -/
def zeroMatrix : List (List ℝ) := List.replicate 32 (List.replicate 32 0)

/-! ## Grayscale conversion

Two distinct implementations exist in the repository. -/

/-- Embeds `imageDataToGrayscaleMatrix` from src/esm-src/utils/video.js:
`matrix[y][x] = Math.round(0.299·r + 0.587·g + 0.114·b)` reading the RGBA
byte array at `idx = (y·size + x)·4`.  JS `Math.round` rounds half toward
+∞, as does the Mathlib `round` (floor of x + 1/2). -/
def imageDataToGrayscaleMatrix (data : List ℚ) (size : Nat) : List (List ℤ) :=
  (List.range size).map fun y =>
    (List.range size).map fun x =>
      let idx := (y * size + x) * 4
      round ((299 / 1000 : ℚ) * data.getD idx 0 +
             (587 / 1000 : ℚ) * data.getD (idx + 1) 0 +
             (114 / 1000 : ℚ) * data.getD (idx + 2) 0)

/-- One frame of the pixel accumulation in part_000 `computeMultiFramePHash`:
`const gray = (r + g + b) / 3; acc[y][x] += gray`, reading r, g, b at
`idx = (y·n + x)·4` of the RGBA byte array. -/
def legacyAccumFrame (acc : List (List ℚ)) (img : List ℚ) (n : Nat) : List (List ℚ) :=
  (List.range n).map fun y =>
    (List.range n).map fun x =>
      let idx := (y * n + x) * 4
      (acc.getD y []).getD x 0 +
        (img.getD idx 0 + img.getD (idx + 1) 0 + img.getD (idx + 2) 0) / 3

/-- The all-zero accumulator built by the source before accumulation. -/
def zeroAcc (n : Nat) : List (List ℚ) := List.replicate n (List.replicate n 0)

/-- The relation "ordered by descending priority". -/
def priorityDesc (a b : Job) : Prop := b.priority ≤ a.priority

instance : DecidableRel priorityDesc :=
  fun a b => inferInstanceAs (Decidable (b.priority ≤ a.priority))

/-! ## Supporting lemmas -/

theorem countDiffs_eq (a : List Char) : ∀ b : List Char,
    countDiffs a b = (List.range (min a.length b.length)).countP
      fun i => a.getD i ' ' != b.getD i ' ' := by
  induction a with
  | nil => intro b; simp [countDiffs]
  | cons x xs ih =>
    intro b
    cases b with
    | nil => simp [countDiffs]
    | cons y ys =>
      simp only [countDiffs, List.length_cons, Nat.succ_min_succ, List.range_succ_eq_map,
        List.countP_cons, List.countP_map, Function.comp_def, List.getD_cons_zero,
        List.getD_cons_succ, ih ys]
      by_cases hxy : x = y
      · simp [hxy]
      · have hb : (x != y) = true := bne_iff_ne.mpr hxy
        simp only [if_neg hxy, hb, if_true, ite_true]
        omega

theorem count01 (h : List Char) (hb : ∀ c ∈ h, c = '0' ∨ c = '1') :
    h.count '0' + h.count '1' = h.length := by
  induction h with
  | nil => simp
  | cons c t ih =>
    have hc := hb c (List.mem_cons_self _ _)
    have ht : ∀ x ∈ t, x = '0' ∨ x = '1' := fun x hx => hb x (List.mem_cons_of_mem _ hx)
    rcases hc with hc | hc <;> subst hc <;>
      simp only [List.count_cons, List.length_cons] <;> rw [← ih ht] <;> simp <;> omega

theorem getD_replicate {α : Type _} (n i : Nat) (a d : α) :
    (List.replicate n a).getD i d = if i < n then a else d := by
  induction n generalizing i with
  | zero => simp
  | succ n ih =>
    cases i with
    | zero => simp [List.replicate_succ]
    | succ i =>
      rw [List.replicate_succ, List.getD_cons_succ, ih]
      simp [Nat.succ_lt_succ_iff]

theorem getD_map_range {α : Type _} (n i : Nat) (f : Nat → α) (d : α) (h : i < n) :
    ((List.range n).map f).getD i d = f i := by
  rw [List.getD_eq_getElem?_getD, List.getElem?_map, List.getElem?_range h]
  rfl

theorem entry_zeroMatrix (y x : Nat) : entry zeroMatrix y x = 0 := by
  unfold entry zeroMatrix
  rw [getD_replicate]
  split
  · rw [getD_replicate]; split <;> rfl
  · simp

theorem dct2D_zeroMatrix : dct2D zeroMatrix = List.replicate 32 (List.replicate 32 (0:ℝ)) := by
  unfold dct2D
  simp only [show zeroMatrix.length = 32 from by simp [zeroMatrix]]
  rw [List.eq_replicate_iff]
  refine ⟨by simp, ?_⟩
  intro row hrow
  rw [List.mem_map] at hrow
  obtain ⟨u, hu, hrow⟩ := hrow
  rw [List.eq_replicate_iff]
  refine ⟨by rw [← hrow]; simp, ?_⟩
  intro c hc
  rw [← hrow, List.mem_map] at hc
  obtain ⟨v, hv, hc⟩ := hc
  rw [← hc]
  simp [entry_zeroMatrix]

theorem entry_dct2D_zero (u v : Nat) : entry (dct2D zeroMatrix) u v = 0 := by
  rw [entry, dct2D_zeroMatrix, getD_replicate]
  split
  · rw [getD_replicate]; split <;> rfl
  · simp

theorem lowFreqBlock_length (d : List (List ℝ)) : (lowFreqBlock d).length = 63 := by
  simp only [lowFreqBlock, List.length_flatMap, Function.comp_def, apply_ite List.length,
    List.length_singleton, List.length_nil]
  decide

theorem lowFreqBlock_all_zero :
    lowFreqBlock (dct2D zeroMatrix) = List.replicate 63 (0:ℝ) := by
  rw [List.eq_replicate_iff]
  refine ⟨lowFreqBlock_length _, ?_⟩
  intro b hb
  simp only [lowFreqBlock, List.mem_flatMap] at hb
  obtain ⟨y, hy, x, hx, hmem⟩ := hb
  split at hmem
  · simp at hmem
  · simp only [List.mem_singleton] at hmem
    rw [hmem]
    exact entry_dct2D_zero y x

theorem sortAsc_replicate_zero : sortAsc (List.replicate 63 (0:ℝ)) = List.replicate 63 0 := by
  rw [List.eq_replicate_iff]
  refine ⟨by simp [sortAsc, List.length_insertionSort], ?_⟩
  intro b hb
  have hmem := (List.perm_insertionSort (· ≤ ·) (List.replicate 63 (0:ℝ))).mem_iff.mp hb
  exact List.eq_of_mem_replicate hmem

theorem computePHashBits_zeroMatrix :
    computePHashBits zeroMatrix = List.replicate 63 '0' := by
  unfold computePHashBits
  simp only [lowFreqBlock_all_zero, sortAsc_replicate_zero, List.length_replicate,
    getD_replicate, List.map_replicate]
  norm_num

theorem computePHashFromMatrix_eq (m : List (List ℝ)) (h : m.length = 32) :
    computePHashFromMatrix m = some (computePHashBits m) := by
  unfold computePHashFromMatrix computePHashChecked
  rw [if_neg (by simp [h, CANVAS_SIZE])]
  rfl

theorem computePHashFromMatrix_zeroMatrix :
    computePHashFromMatrix zeroMatrix = some (List.replicate 63 '0') := by
  rw [computePHashFromMatrix_eq zeroMatrix (by simp [zeroMatrix]), computePHashBits_zeroMatrix]

/-- In a ≤-sorted list, at most `length - (k+1)` elements strictly exceed the
element at index `k`. -/
theorem countP_gt_le (l : List ℝ) (hs : l.Sorted (· ≤ ·)) :
    ∀ (k : Nat), k < l.length →
      l.countP (fun v => decide (l.getD k 0 < v)) + (k + 1) ≤ l.length := by
  induction l with
  | nil => intro k hk; simp at hk
  | cons a t ih =>
    rcases List.sorted_cons.mp hs with ⟨ha, ht⟩
    intro k hk
    cases k with
    | zero =>
      simp only [List.getD_cons_zero, List.countP_cons, List.length_cons]
      have h1 : t.countP (fun v => decide (a < v)) ≤ t.length := List.countP_le_length _
      rw [if_neg (by simp)]
      omega
    | succ k =>
      have hk2 : k < t.length := by simpa using hk
      simp only [List.getD_cons_succ, List.countP_cons, List.length_cons]
      have hmem : t.getD k 0 ∈ t := by
        have he : t.getD k 0 = t[k] := by
          rw [List.getD_eq_getElem?_getD, List.getElem?_eq_getElem hk2]
          rfl
        rw [he]
        exact List.getElem_mem hk2
      have hle : a ≤ t.getD k 0 := ha _ hmem
      have hna : ¬ (t.getD k 0 < a) := not_lt.mpr hle
      rw [if_neg (by simpa using hna)]
      have := ih ht k hk2
      omega

/-- A '1' bit requires its coefficient to strictly exceed the element of the sorted block
at index `length / 2`, so a 63-coefficient block yields at most 31
ones. -/
theorem ones_le_of_block (block : List ℝ) (hlen : block.length = 63) :
    (block.map fun v =>
      if (sortAsc block).getD ((sortAsc block).length / 2) 0 < v then '1' else '0').count '1'
      ≤ 31 := by
  set median := (sortAsc block).getD ((sortAsc block).length / 2) 0 with hmed
  have hcount : (block.map fun v => if median < v then '1' else '0').count '1'
      = block.countP (fun v => decide (median < v)) := by
    rw [List.count_eq_countP, List.countP_map]
    congr 1
    funext v
    by_cases hv : median < v <;> simp [hv]
  rw [hcount]
  have hperm : block.countP (fun v => decide (median < v))
      = (sortAsc block).countP (fun v => decide (median < v)) :=
    ((List.perm_insertionSort (· ≤ ·) block).countP_eq _).symm
  rw [hperm]
  have hsortlen : (sortAsc block).length = 63 := by
    simp [sortAsc, List.length_insertionSort, hlen]
  have hssorted : (sortAsc block).Sorted (· ≤ ·) := List.sorted_insertionSort _ _
  have hkey := countP_gt_le (sortAsc block) hssorted ((sortAsc block).length / 2)
    (by rw [hsortlen]; norm_num)
  rw [hmed]
  omega

theorem zeroAcc_entry (n y x : Nat) : ((zeroAcc n).getD y []).getD x 0 = 0 := by
  unfold zeroAcc
  rw [getD_replicate]
  split
  · rw [getD_replicate]; split <;> rfl
  · simp

theorem insertByPriority_perm (job : Job) (l : List Job) :
    List.Perm (insertByPriority job l) (job :: l) := by
  induction l with
  | nil => exact List.Perm.refl _
  | cons j rest ih =>
    rw [insertByPriority]
    by_cases h : j.priority < job.priority
    · simp [h]
    · simp only [if_neg h]
      exact (ih.cons j).trans (List.Perm.swap _ _ _)

theorem insertByPriority_sorted (job : Job) (l : List Job)
    (hs : l.Sorted priorityDesc) : (insertByPriority job l).Sorted priorityDesc := by
  induction l with
  | nil => simp [insertByPriority]
  | cons j rest ih =>
    rw [insertByPriority]
    rcases List.sorted_cons.mp hs with ⟨hj, hrest⟩
    by_cases h : j.priority < job.priority
    · simp only [if_pos h]
      refine List.sorted_cons.mpr ⟨?_, hs⟩
      intro b hb
      rcases List.mem_cons.mp hb with rfl | hb2
      · exact le_of_lt h
      · exact le_trans (hj b hb2) (le_of_lt h)
    · simp only [if_neg h]
      refine List.sorted_cons.mpr ⟨?_, ih hrest⟩
      intro b hb
      rcases List.mem_cons.mp ((insertByPriority_perm job rest).mem_iff.mp hb) with rfl | hb2
      · exact not_lt.mp h
      · exact hj b hb2

theorem drainPending_active_length (pending : List Job) :
    ∀ (active : List Job) (max : Nat),
      (drainPending pending active max).2.1.length ≤ Nat.max active.length max := by
  induction pending with
  | nil => intro active max; simp [drainPending]
  | cons job rest ih =>
    intro active max
    rw [drainPending]
    by_cases h : active.length < max
    · simp only [if_pos h]
      calc (drainPending rest (job :: active) max).2.1.length
          ≤ Nat.max (job :: active).length max := ih _ _
        _ = max := by simp only [List.length_cons]; exact Nat.max_eq_right h
        _ ≤ Nat.max active.length max := Nat.le_max_right _ _
    · simp only [if_neg h]
      exact Nat.le_max_left _ _

theorem processQueue_active_le (s : QState) (h : s.activeJobs.length ≤ s.maxConcurrent) :
    (processQueue s).activeJobs.length ≤ (processQueue s).maxConcurrent := by
  show (drainPending s.pendingJobs s.activeJobs s.maxConcurrent).2.1.length ≤ s.maxConcurrent
  calc (drainPending s.pendingJobs s.activeJobs s.maxConcurrent).2.1.length
      ≤ Nat.max s.activeJobs.length s.maxConcurrent := drainPending_active_length _ _ _
    _ = s.maxConcurrent := Nat.max_eq_right h

theorem step_maxConcurrent (s : QState) (e : QEvent) :
    (step s e).maxConcurrent = s.maxConcurrent := by
  cases e <;> rfl

theorem step_active_le (s : QState) (e : QEvent)
    (h : s.activeJobs.length ≤ s.maxConcurrent) :
    (step s e).activeJobs.length ≤ (step s e).maxConcurrent := by
  cases e with
  | enqueue id priority => exact processQueue_active_le _ h
  | settle k =>
    exact processQueue_active_le _
      (le_trans (List.length_eraseIdx_le _ _) h)

theorem foldl_step_inv (evs : List QEvent) : ∀ s : QState,
    s.activeJobs.length ≤ s.maxConcurrent →
    (evs.foldl step s).activeJobs.length ≤ (evs.foldl step s).maxConcurrent ∧
    (evs.foldl step s).maxConcurrent = s.maxConcurrent := by
  induction evs with
  | nil => intro s h; exact ⟨h, rfl⟩
  | cons e t ih =>
    intro s h
    have h1 := step_active_le s e h
    have h2 := step_maxConcurrent s e
    have h3 := ih (step s e) h1
    exact ⟨h3.1, h3.2.trans h2⟩

/-- The event trace for the priority-ordering scenario: three priority-0 jobs
fill the three active slots, then jobs with priorities [1, 5, 1, 3] are
enqueued (ids 0, 1, 2, 3 in enqueue order), then four settlements drain. -/
def scenarioEvents : List QEvent :=
  [.enqueue 100 0, .enqueue 101 0, .enqueue 102 0,
   .enqueue 0 1, .enqueue 1 5, .enqueue 2 1, .enqueue 3 3,
   .settle 0, .settle 0, .settle 0, .settle 0]

/-! ## Claims -/

/-- Claim C1: for every sequence of enqueue (and settlement) events on a
`ConcurrencyQueue`, the size of the active set never exceeds `maxConcurrent`
at any point (i.e., after every prefix of the event trace). -/
theorem run_active_le_maxConcurrent (max : Nat) (evs : List QEvent) :
    (run max evs).activeJobs.length ≤ max := by
  have h := foldl_step_inv evs (initState max) (by simp [initState])
  calc (run max evs).activeJobs.length ≤ (run max evs).maxConcurrent := h.1
    _ = max := h.2

/-- Claim C2: `enqueue` keeps the pending list ordered by descending
priority, and for jobs enqueued with priorities [1, 5, 1, 3] (ids 0, 1, 2, 3)
while the active set is full, the pending order — and hence the dequeue order
once capacity frees up — is priorities [5, 3, 1, 1] with the two priority-1
jobs (ids 0 then 2) in their original relative order. -/
theorem enqueue_priority_order :
    (∀ (l : List Job) (job : Job), l.Sorted priorityDesc →
        (insertByPriority job l).Sorted priorityDesc) ∧
    (run MAX_CONCURRENT (scenarioEvents.take 7)).pendingJobs.map Job.priority = [5, 3, 1, 1] ∧
    (run MAX_CONCURRENT (scenarioEvents.take 7)).pendingJobs.map Job.id = [1, 3, 0, 2] ∧
    (run MAX_CONCURRENT scenarioEvents).started = [100, 101, 102, 1, 3, 0, 2] :=
  ⟨fun l job => insertByPriority_sorted job l, by decide, by decide, by decide⟩

theorem enqueue_priority_order_witness :
    (([⟨10, 7⟩, ⟨11, 2⟩] : List Job).Sorted priorityDesc) ∧
    (insertByPriority ⟨12, 5⟩ [⟨10, 7⟩, ⟨11, 2⟩]).Sorted priorityDesc :=
  ⟨by decide, enqueue_priority_order.1 [⟨10, 7⟩, ⟨11, 2⟩] ⟨12, 5⟩ (by decide)⟩

/-- Claim C3: for non-empty bit strings `a` and `b`, `hammingDistance a b`
equals the number of positions `i < min |a| |b|` where `a` and `b` differ,
plus the absolute difference of the lengths. -/
theorem hammingDistance_spec (a b : List Char) (ha : a ≠ []) (hb : b ≠ []) :
    hammingDistance a b = some
      ((List.range (min a.length b.length)).countP
          (fun i => a.getD i ' ' != b.getD i ' ') +
        ((a.length : Int) - (b.length : Int)).natAbs) := by
  simp [hammingDistance, List.isEmpty_iff, ha, hb, countDiffs_eq]

theorem hammingDistance_spec_witness :
    (['0', '1'] : List Char) ≠ [] ∧ (['1'] : List Char) ≠ [] ∧
    hammingDistance ['0', '1'] ['1'] = some
      ((List.range (min (['0', '1'] : List Char).length (['1'] : List Char).length)).countP
          (fun i => (['0', '1'] : List Char).getD i ' ' != (['1'] : List Char).getD i ' ') +
        (((['0', '1'] : List Char).length : Int) - ((['1'] : List Char).length : Int)).natAbs) :=
  ⟨by decide, by decide, hammingDistance_spec ['0', '1'] ['1'] (by decide) (by decide)⟩

/-- Claim C5: `isTrivialHash` declares a binary fingerprint trivial exactly
when its count of ones or its count of zeros is ≤ the configured minimum;
the boundary is inclusive: a 63-bit fingerprint with exactly 4 ones is
trivial, one with exactly 5 ones is not. -/
theorem isTrivialHash_spec :
    (∀ (m : Nat) (h : List Char), (∀ c ∈ h, c = '0' ∨ c = '1') →
      (isTrivialHash m h = true ↔ h.count '1' ≤ m ∨ h.count '0' ≤ m)) ∧
    isTrivialHash MIN_ONES_ZEROS (List.replicate 4 '1' ++ List.replicate 59 '0') = true ∧
    isTrivialHash MIN_ONES_ZEROS (List.replicate 5 '1' ++ List.replicate 58 '0') = false := by
  refine ⟨?_, by decide, by decide⟩
  intro m h hb
  have h01 := count01 h hb
  simp only [isTrivialHash, Bool.or_eq_true, decide_eq_true_iff]
  omega

theorem isTrivialHash_spec_witness :
    (∀ c ∈ (['1'] : List Char), c = '0' ∨ c = '1') ∧
    (isTrivialHash 4 ['1'] = true ↔
      (['1'] : List Char).count '1' ≤ 4 ∨ (['1'] : List Char).count '0' ≤ 4) :=
  ⟨by decide, isTrivialHash_spec.1 4 ['1'] (by decide)⟩

/-- Claim C9: similarity matching is monotone in the threshold, and
`areHashesSimilar a b t` holds iff the Hamming distance is finite and
≤ t (inclusive). -/
theorem areHashesSimilar_monotone :
    (∀ (a b : List Char) (t t2 : Nat), t ≤ t2 →
      areHashesSimilar a b t = true → areHashesSimilar a b t2 = true) ∧
    (∀ (a b : List Char) (t : Nat),
      areHashesSimilar a b t = true ↔ ∃ d, hammingDistance a b = some d ∧ d ≤ t) := by
  constructor
  · intro a b t t2 htt h
    cases hd : hammingDistance a b with
    | none => simp [areHashesSimilar, hd] at h
    | some d =>
      simp only [areHashesSimilar, hd, decide_eq_true_iff] at h ⊢
      omega
  · intro a b t
    cases hd : hammingDistance a b with
    | none => simp [areHashesSimilar, hd]
    | some d => simp [areHashesSimilar, hd]

theorem areHashesSimilar_monotone_witness :
    ((0 : Nat) ≤ 1 ∧ areHashesSimilar ['0'] ['0'] 0 = true) ∧
    areHashesSimilar ['0'] ['0'] 1 = true :=
  ⟨⟨by decide, by decide⟩,
    areHashesSimilar_monotone.1 ['0'] ['0'] 0 1 (by decide) (by decide)⟩

/-- Claim C4: every 32×32 input matrix produces a fingerprint of length
exactly 63 (the 8×8 low-frequency DCT block minus the DC term). -/
theorem computePHashFromMatrix_length (m : List (List ℝ)) (h : m.length = 32) :
    ∃ bits, computePHashFromMatrix m = some bits ∧ bits.length = 63 := by
  refine ⟨computePHashBits m, computePHashFromMatrix_eq m h, ?_⟩
  unfold computePHashBits
  simp [lowFreqBlock_length]

theorem computePHashFromMatrix_length_witness :
    zeroMatrix.length = 32 ∧
    ∃ bits, computePHashFromMatrix zeroMatrix = some bits ∧ bits.length = 63 :=
  ⟨by simp [zeroMatrix], computePHashFromMatrix_length zeroMatrix (by simp [zeroMatrix])⟩

/-- Claim C6: the all-zero 32×32 matrix has every DCT coefficient equal to 0
(so no coefficient strictly exceeds the median), its fingerprint is the
all-'0' 63-bit string, and that fingerprint is classified trivial. -/
theorem zeroMatrix_trivial :
    (∀ u v : Nat, entry (dct2D zeroMatrix) u v = 0) ∧
    computePHashFromMatrix zeroMatrix = some (List.replicate 63 '0') ∧
    isTrivialHash MIN_ONES_ZEROS (List.replicate 63 '0') = true :=
  ⟨entry_dct2D_zero, computePHashFromMatrix_zeroMatrix, by decide⟩

/-- Claim C7: a matrix of the wrong size makes `computePHashFromMatrix` throw
the descriptive error message "Invalid matrix size" before any hashing; the result
surfaced to the caller is `null`, never a hash value. -/
theorem wrongSize_fails (m : List (List ℝ)) (h : m.length ≠ CANVAS_SIZE) :
    computePHashChecked m = Except.error "Invalid matrix size" ∧
    computePHashFromMatrix m = none := by
  constructor
  · unfold computePHashChecked
    rw [if_pos h]
  · unfold computePHashFromMatrix computePHashChecked
    rw [if_pos h]
    rfl

theorem wrongSize_fails_witness :
    ([] : List (List ℝ)).length ≠ CANVAS_SIZE ∧
    (computePHashChecked [] = Except.error "Invalid matrix size" ∧
      computePHashFromMatrix [] = none) :=
  ⟨by decide, wrongSize_fails [] (by decide)⟩

/-- Claim C8 (counterexample): at the pixel (r, g, b) = (255, 0, 0), the
legacy frame capture in part_000 stores the unweighted average 85, which is
not the BT.601 value round(0.299·255 + 0.587·0 + 0.114·0) = 76 the claim
asserts for every pixel of frame capture. -/
theorem grayscale_counterexample :
    ((legacyAccumFrame (zeroAcc 1) [255, 0, 0, 255] 1).getD 0 []).getD 0 0 = 85 ∧
    round ((299 / 1000 : ℚ) * 255 + (587 / 1000 : ℚ) * 0 + (114 / 1000 : ℚ) * 0) = (76 : ℤ) ∧
    (85 : ℚ) ≠ ((76 : ℤ) : ℚ) := by
  refine ⟨?_, by norm_num [round_eq], by norm_num⟩
  unfold legacyAccumFrame
  rw [getD_map_range _ _ _ _ (by norm_num : (0 : Nat) < 1),
      getD_map_range _ _ _ _ (by norm_num : (0 : Nat) < 1), zeroAcc_entry, zero_add]
  norm_num

/-- Claim C8 (amended): the ESM path (`VideoUtils.imageDataToGrayscaleMatrix`)
stores round(0.299·r + 0.587·g + 0.114·b) for every pixel, while the legacy
content-script frame capture accumulates the unweighted average
(r + g + b) / 3 without BT.601 weighting or rounding. -/
theorem grayscale_conversions (data : List ℚ) (size y x : Nat)
    (hy : y < size) (hx : x < size) :
    (((imageDataToGrayscaleMatrix data size).getD y []).getD x 0 =
      round ((299 / 1000 : ℚ) * data.getD ((y * size + x) * 4) 0 +
             (587 / 1000 : ℚ) * data.getD ((y * size + x) * 4 + 1) 0 +
             (114 / 1000 : ℚ) * data.getD ((y * size + x) * 4 + 2) 0)) ∧
    (((legacyAccumFrame (zeroAcc size) data size).getD y []).getD x 0 =
      (data.getD ((y * size + x) * 4) 0 + data.getD ((y * size + x) * 4 + 1) 0 +
        data.getD ((y * size + x) * 4 + 2) 0) / 3) := by
  constructor
  · unfold imageDataToGrayscaleMatrix
    rw [getD_map_range _ _ _ _ hy, getD_map_range _ _ _ _ hx]
  · unfold legacyAccumFrame
    rw [getD_map_range _ _ _ _ hy, getD_map_range _ _ _ _ hx, zeroAcc_entry, zero_add]

theorem grayscale_conversions_witness :
    ((0 : Nat) < 1 ∧ (0 : Nat) < 1) ∧
    ((((imageDataToGrayscaleMatrix [255, 0, 0, 255] 1).getD 0 []).getD 0 0 =
        round ((299 / 1000 : ℚ) * ([255, 0, 0, 255] : List ℚ).getD ((0 * 1 + 0) * 4) 0 +
               (587 / 1000 : ℚ) * ([255, 0, 0, 255] : List ℚ).getD ((0 * 1 + 0) * 4 + 1) 0 +
               (114 / 1000 : ℚ) * ([255, 0, 0, 255] : List ℚ).getD ((0 * 1 + 0) * 4 + 2) 0)) ∧
      (((legacyAccumFrame (zeroAcc 1) [255, 0, 0, 255] 1).getD 0 []).getD 0 0 =
        (([255, 0, 0, 255] : List ℚ).getD ((0 * 1 + 0) * 4) 0 +
          ([255, 0, 0, 255] : List ℚ).getD ((0 * 1 + 0) * 4 + 1) 0 +
          ([255, 0, 0, 255] : List ℚ).getD ((0 * 1 + 0) * 4 + 2) 0) / 3)) :=
  ⟨⟨by decide, by decide⟩,
    grayscale_conversions [255, 0, 0, 255] 1 0 0 (by decide) (by decide)⟩

/-- Claim C10: every fingerprint produced from a 32×32 matrix has at most 31
one-bits: a bit is '1' only when its coefficient strictly exceeds the element of the sorted block at index 31, and at most 31 of the 63 coefficients can. -/
theorem computePHash_ones_le (m : List (List ℝ)) (h : m.length = 32)
    (bits : List Char) (hb : computePHashFromMatrix m = some bits) :
    bits.count '1' ≤ 31 := by
  rw [computePHashFromMatrix_eq m h] at hb
  have hbits : bits = computePHashBits m := by injection hb.symm
  subst hbits
  have hz : computePHashBits m = (lowFreqBlock (dct2D m)).map fun v =>
      if (sortAsc (lowFreqBlock (dct2D m))).getD
          ((sortAsc (lowFreqBlock (dct2D m))).length / 2) 0 < v
      then '1' else '0' := rfl
  rw [hz]
  exact ones_le_of_block _ (lowFreqBlock_length _)

theorem computePHash_ones_le_witness :
    zeroMatrix.length = 32 ∧
    computePHashFromMatrix zeroMatrix = some (List.replicate 63 '0') ∧
    (List.replicate 63 '0').count '1' ≤ 31 :=
  ⟨by simp [zeroMatrix], computePHashFromMatrix_zeroMatrix,
    computePHash_ones_le zeroMatrix (by simp [zeroMatrix]) _ computePHashFromMatrix_zeroMatrix⟩

end VideoBlocker
